import Mathlib

/-!
Verification development for the configuration-file patch engine
(`parser/helpers.go`): placeholder resolution against a host configuration
store, wildcard path fan-out, and type-coerced writes into a JSON-shaped
document tree.

The Go source is shallowly embedded below.  Pure Go functions become Lean
functions; the single fixed regular expression of the source
(pattern: two opening braces, at most one whitespace, the literal
`config.`, one or more word/dot/hyphen characters captured, at most one
whitespace, two closing braces) is embedded as an executable matcher over
character lists.  External collaborators that the spec declares as opaque
interfaces (the host configuration store, the gabs document tree, the
strcase camel-case conversion) are modelled from the interfaces and
contracts the spec states for them; everything else is translated from
`helpers.go` directly.
-/

namespace Wings

/-- `jsonparser.ValueType` of the Go `buger/jsonparser` library, as used by
`helpers.go`. -/
inductive JsonVT where
  | NotExist
  | String
  | Number
  | Object
  | Array
  | Boolean
  | Null
  | Unknown
deriving DecidableEq, Repr

/-- Result of one host-configuration lookup.  Modelled from the spec:
the host store is an opaque byte-addressable key lookup
`Get(pathSegments) -> (bytes, ValueType, error)` whose error distinguishes
the recoverable key-not-found condition from all other (fatal) faults. -/
inductive GetResult where
  | found (value : String) (dt : JsonVT)
  | notFound
  | fault (msg : String)
deriving DecidableEq, Repr

/-- One replacement rule (`ConfigurationFileReplacement` in the Go code):
a dot-notated target path, a literal or placeholder-bearing value, and the
declared scalar type of the value. -/
structure ConfigurationFileReplacement where
  Match : String
  Value : String
  ValueType : JsonVT
deriving DecidableEq, Repr

/-- The configuration-file processor (`ConfigurationFile` in the Go code):
the ordered rule list and the host configuration store (the Go field
`configuration` holds the daemon configuration bytes interrogated through
`jsonparser.Get`; here it is the abstract lookup interface). -/
structure ConfigurationFile where
  Replace : List ConfigurationFileReplacement
  configuration : List String → GetResult

/-! ### The placeholder regular expression

`configMatchRegex` in the source is the fixed pattern: two opening braces,
`\s?` (zero or one whitespace character), the literal `config.`, a capture
group of one or more characters from the class word/dot/hyphen, `\s?`, two
closing braces.  We embed it as a deterministic matcher on `List Char`
(deterministic because the capture class excludes whitespace and braces, so
the regex engine never needs to backtrack on this pattern). -/

/-- Go regexp `\s`: the ASCII whitespace class tab, newline, form feed,
carriage return, space. -/
def isSpaceRE (c : Char) : Bool :=
  c = ' ' || c = '\t' || c = '\n' || c = '\x0c' || c = '\r'

/-- Go regexp character class of word characters, dots and hyphens
(`\w` is ASCII `[0-9A-Za-z_]`). -/
def isWordDotDash (c : Char) : Bool :=
  c.isAlphanum || c = '_' || c = '.' || c = '-'

/-- Consume at most one whitespace character (the `\s?` piece). -/
def consumeOptSpace : List Char → List Char × List Char
  | [] => ([], [])
  | c :: cs => if isSpaceRE c then ([c], cs) else ([], c :: cs)

/-- Strip an exact literal from the front of a character list. -/
def dropLit : List Char → List Char → Option (List Char)
  | [], s => some s
  | _ :: _, [] => none
  | p :: ps, c :: cs => if c = p then dropLit ps cs else none

/-- The literal `config.` appearing in the pattern. -/
def configDot : List Char := ['c', 'o', 'n', 'f', 'i', 'g', '.']

/-- Attempt to match the placeholder pattern at the start of `s`.  On
success returns `(matched, capture, rest)` where `matched` is the whole
matched substring, `capture` the first capture group and `rest` what
follows the match. -/
def matchPlaceholderAt : List Char → Option (List Char × List Char × List Char)
  | '\x7b' :: '\x7b' :: t =>
    match dropLit configDot (consumeOptSpace t).2 with
    | none => none
    | some t2 =>
      if t2.takeWhile isWordDotDash = [] then none
      else
        match (consumeOptSpace (t2.dropWhile isWordDotDash)).2 with
        | '\x7d' :: '\x7d' :: rest =>
          some ('\x7b' :: '\x7b' ::
                  ((consumeOptSpace t).1 ++ configDot ++ t2.takeWhile isWordDotDash
                    ++ (consumeOptSpace (t2.dropWhile isWordDotDash)).1 ++ ['\x7d', '\x7d']),
                t2.takeWhile isWordDotDash, rest)
        | _ => none
  | _ => none

/-- Leftmost match of the placeholder pattern: returns
`(before, matched, capture, rest)` for the first position at which the
pattern matches, scanning left to right as `regexp.FindString` does. -/
def findPlaceholder : List Char → Option (List Char × List Char × List Char × List Char)
  | [] => none
  | c :: cs =>
    match matchPlaceholderAt (c :: cs) with
    | some (m, cap, rest) => some ([], m, cap, rest)
    | none =>
      match findPlaceholder cs with
      | some (pre, m, cap, rest) => some (c :: pre, m, cap, rest)
      | none => none

/-! ### Go template expansion

`Regexp.ReplaceAllString` interprets dollar signs in the replacement text:
`$name` or a braced name refers to a capture group (by number or name), a
doubled dollar is a literal dollar, and a malformed reference keeps the
dollar as raw text.  Our pattern has exactly one (unnamed) group, so group
0 is the whole match, group 1 the capture, and every other reference
expands to nothing. -/

/-- Characters allowed in a template group name (Go uses letters, digits
and underscore; ASCII suffices for every use in this program). -/
def isTemplNameChar (c : Char) : Bool := c.isAlphanum || c = '_'

/-- Extract a group reference after a dollar sign: either a braced name or
a longest run of name characters.  Returns the name and the rest of the
template, or `none` when malformed. -/
def extractName : List Char → Option (List Char × List Char)
  | '\x7b' :: t =>
    match t.takeWhile isTemplNameChar, t.dropWhile isTemplNameChar with
    | [], _ => none
    | name, '\x7d' :: r => some (name, r)
    | _, _ => none
  | t =>
    match t.takeWhile isTemplNameChar, t.dropWhile isTemplNameChar with
    | [], _ => none
    | name, r => some (name, r)

/-- Numeric value of a digit character. -/
def digitVal (c : Char) : Nat := c.toNat - '0'.toNat

/-- Decimal value of a digit run. -/
def natOfDigits (l : List Char) : Nat :=
  l.foldl (fun acc c => acc * 10 + digitVal c) 0

/-- Interpret a template group name as a group number, following Go's
rules: all digits, no leading zero (unless the single digit zero), and the
accumulator must stay below ten to the eighth while parsing (so at most
nine digits); otherwise the name is treated as a (non-existent) named
group. -/
def templNum (name : List Char) : Option Nat :=
  if !name.isEmpty && name.all Char.isDigit
      && (name.length == 1 || name.head? != some '0')
      && decide (name.length ≤ 9) then
    some (natOfDigits name)
  else none

/-- The text a group reference contributes: group 0 is the whole match,
group 1 the capture, anything else (out-of-range numbers and unknown
names) contributes nothing. -/
def templGroup (g0 g1 : List Char) (name : List Char) : List Char :=
  match templNum name with
  | some 0 => g0
  | some 1 => g1
  | _ => []

/-- Fuelled template expansion; one unit of fuel is spent per step and each
step consumes at least one template character, so fuel equal to the
template length is always sufficient. -/
def expandFuel (g0 g1 : List Char) : Nat → List Char → List Char
  | 0, t => t
  | _ + 1, [] => []
  | fuel + 1, c :: rest =>
    if c = '$' then
      match rest with
      | '$' :: rest2 => '$' :: expandFuel g0 g1 fuel rest2
      | _ =>
        match extractName rest with
        | none => '$' :: expandFuel g0 g1 fuel rest
        | some (name, rest2) => templGroup g0 g1 name ++ expandFuel g0 g1 fuel rest2
    else c :: expandFuel g0 g1 fuel rest

/-- Expand a replacement template against the groups of one match. -/
def expandAll (g0 g1 t : List Char) : List Char := expandFuel g0 g1 t.length t

/-- Fuelled global replacement: repeatedly find the leftmost match and
substitute the expanded template, continuing after the match.  Every match
is nonempty, so fuel equal to the subject length is always sufficient. -/
def replaceFuel (repl : List Char) : Nat → List Char → List Char
  | 0, s => s
  | fuel + 1, s =>
    match findPlaceholder s with
    | none => s
    | some (pre, m, cap, rest) => pre ++ expandAll m cap repl ++ replaceFuel repl fuel rest

/-- `configMatchRegex.ReplaceAllString` on character lists. -/
def replaceAllChars (repl s : List Char) : List Char := replaceFuel repl s.length s

/-- `configMatchRegex.Match` of the source. -/
def regexHasMatch (s : String) : Bool := (findPlaceholder s.data).isSome

/-- `configMatchRegex.FindString` of the source (empty string when there is
no match). -/
def regexFindString (s : String) : String :=
  match findPlaceholder s.data with
  | some (_, m, _, _) => ⟨m⟩
  | none => ""

/-- `configMatchRegex.ReplaceAllString` of the source. -/
def regexReplaceAll (s repl : String) : String := ⟨replaceAllChars repl.data s.data⟩

/-! ### String helpers from the Go standard library and strcase -/

/-- `strings.Split(s, ".")` (accumulator form; segments between dots,
empty segments preserved). -/
def splitDotAux : List Char → List Char → List (List Char)
  | [], acc => [acc.reverse]
  | '.' :: cs, acc => acc.reverse :: splitDotAux cs []
  | c :: cs, acc => splitDotAux cs (c :: acc)

/-- `strings.Split(s, ".")` on a character list, producing strings. -/
def splitDotL (s : List Char) : List String := (splitDotAux s []).map String.mk

/-- `strings.Split(s, ".")`. -/
def splitDot (s : String) : List String := splitDotL s.data

/-- `strings.Trim(s, cutset)` for a single-character cutset. -/
def trimCharList (ch : Char) (s : List Char) : List Char :=
  ((s.dropWhile (· = ch)).reverse.dropWhile (· = ch)).reverse

/-- The two-character wildcard marker `.*`. -/
def dotStar : List Char := ['.', '*']

/-- Split on the first occurrence of `sep` (`strings.SplitN(s, sep, 2)`
restricted to the case where `sep` occurs; `none` when it does not, which
is also exactly `strings.Contains(s, sep) = false` for nonempty `sep`). -/
def splitFirstList (sep : List Char) : List Char → Option (List Char × List Char)
  | [] => none
  | c :: cs =>
    match dropLit sep (c :: cs) with
    | some rest => some ([], rest)
    | none => (splitFirstList sep cs).map (fun p => (c :: p.1, p.2))

/-- `strings.Contains(s, ".*")`. -/
def containsDotStar (s : String) : Bool := (splitFirstList dotStar s.data).isSome

/-- Main loop of `strcase.ToCamel`: uppercase letters and digits pass
through, lowercase letters are uppercased exactly when the previous
character was a delimiter (underscore, space, hyphen) or at the start, and
all other characters are dropped.  Modelled from the spec: the conversion
from the rule's lower/snake convention to the host configuration's
camel-case convention uppercases the first letter and every post-delimiter
letter and removes the delimiters (the library's extra preprocessing that
inserts word boundaries around digit runs is irrelevant here: every path
segment this program converts is dot-split, so digit-free segments behave
identically). -/
def camelLoop : Bool → List Char → List Char
  | _, [] => []
  | capNext, c :: cs =>
    (if 'A' ≤ c ∧ c ≤ 'Z' then [c]
     else if '0' ≤ c ∧ c ≤ '9' then [c]
     else if 'a' ≤ c ∧ c ≤ 'z' then (if capNext then [c.toUpper] else [c])
     else []) ++ camelLoop (c = '_' || c = ' ' || c = '-') cs

/-- `strcase.ToCamel` (leading and trailing spaces trimmed first). -/
def toCamel (s : String) : String := ⟨camelLoop true (trimCharList ' ' s.data)⟩

/-! ### Permissive scalar parsing (`strconv`) -/

/-- A nonempty all-digit run parsed to its decimal value, `none` on any
other input. -/
def digitsVal (l : List Char) : Option Nat :=
  if !l.isEmpty && l.all Char.isDigit then some (natOfDigits l) else none

/-- Optional single sign followed by a nonempty digit run, as accepted by
`strconv.ParseInt` in base ten; returns the sign and magnitude. -/
def parseSigned : List Char → Option (Bool × Nat)
  | [] => none
  | '+' :: t => (digitsVal t).map (fun n => (false, n))
  | '-' :: t => (digitsVal t).map (fun n => (true, n))
  | t => (digitsVal t).map (fun n => (false, n))

/-- The largest 64-bit signed integer, the saturation bound of
`strconv.Atoi` on a 64-bit platform. -/
def intMax : Int := 9223372036854775807

/-- `v, _ := strconv.Atoi(s)` as used by `getKeyValue`: the value `Atoi`
returns with its error discarded.  A syntax error yields zero, but an
out-of-range number yields the saturated 64-bit bound together with the
(discarded) range error — `Atoi` is `ParseInt(s, 10, 0)`, which clamps to
the extreme machine integer on range errors. -/
def goAtoi (s : String) : Int :=
  match parseSigned s.data with
  | none => 0
  | some (false, n) => if (n : Int) > intMax then intMax else (n : Int)
  | some (true, n) => if (n : Int) > intMax + 1 then -(intMax + 1) else -(n : Int)

/-- `v, _ := strconv.ParseBool(s)`: true exactly on the six accepted true
spellings; every other input (including the accepted false spellings and
all parse errors) yields false. -/
def goParseBool (s : String) : Bool :=
  s = "1" || s = "t" || s = "T" || s = "TRUE" || s = "true" || s = "True"

/-! ### The document tree

The target document is the generic JSON-shaped tree mutated through the
external gabs container.  Modelled from the spec: a tree of
object/array/scalar nodes addressable by dot-notated paths, with
`Path`-style navigation, `Children` enumeration of the direct children of
a node, and `Set`-style writes that create missing intermediate object
nodes and fail only when the existing structure prevents the write. -/

inductive Container where
  | null
  | boolV (b : Bool)
  | num (n : Int)
  | str (s : String)
  | obj (fields : List (String × Container))
  | arr (items : List Container)

/-- Look a key up in an object's field list (first occurrence). -/
def lookupField : List (String × Container) → String → Option Container
  | [], _ => none
  | (k, v) :: rest, key => if k = key then some v else lookupField rest key

/-- Write a key in an object's field list: replace the first occurrence in
place, or append a new field. -/
def setField : List (String × Container) → String → Container → List (String × Container)
  | [], key, v => [(key, v)]
  | (k, w) :: rest, key, v =>
    if k = key then (key, v) :: rest else (k, w) :: setField rest key v

/-- Array index parsing used by gabs navigation (`strconv.Atoi` on the
path segment; parse failures, negative indexes and out-of-range indexes
make the step fail). -/
def arrIndex (k : String) (len : Nat) : Option Nat :=
  match parseSigned k.data with
  | some (false, n) => if n < len then some n else none
  | _ => none

/-- gabs `Search`/`Path` navigation along already-split path segments:
descend through objects by key and through arrays by numeric index;
`none` (a nil container) on any miss or on descending into a scalar. -/
def Container.searchSeg : Container → List String → Option Container
  | c, [] => some c
  | .obj fs, k :: ks =>
    match lookupField fs k with
    | some v => Container.searchSeg v ks
    | none => none
  | .arr xs, k :: ks =>
    match arrIndex k xs.length with
    | some i => Container.searchSeg (xs.getD i Container.null) ks
    | none => none
  | _, _ :: _ => none

/-- gabs `Children`: the direct children of a node (field values of an
object, elements of an array, nothing for scalars and null). -/
def Container.children : Container → List Container
  | .obj fs => fs.map Prod.snd
  | .arr xs => xs
  | _ => []

/-- gabs `Set` treats a nil (null) target as an empty object before
descending. -/
def denull : Container → Container
  | .null => .obj []
  | c => c

/-- Core of the gabs `Set` walk along already-split path segments: descend
through objects, creating an empty object for a missing or null
intermediate, overwrite at the last segment, and report a path collision
when an existing non-object stands in the way. -/
def setAtCore : Container → List String → Container → Except String Container
  | _, [], v => .ok v
  | .obj fs, [k], v => .ok (.obj (setField fs k v))
  | .obj fs, k :: k2 :: ks, v =>
    match setAtCore (denull ((lookupField fs k).getD Container.null)) (k2 :: ks) v with
    | .ok r => .ok (.obj (setField fs k r))
    | .error e => .error e
  | _, _ :: _, _ => .error "gabs: collision found attempting to set value"

/-- `getKeyValue` of the source: coerce the resolved bytes to a native
scalar according to the declared value type. -/
def getKeyValue (value : String) (vt : JsonVT) : Container :=
  match vt with
  | .Number => .num (goAtoi value)
  | .Boolean => .boolV (goParseBool value)
  | _ => .str value

/-- `setPathway` of the source: coerce and `SetP` at a dot-notated path
(gabs `SetP` splits the path on dots and runs the `Set` walk, first
turning a null target into an empty object since the split path is never
empty). -/
def setPathway (c : Container) (path : String) (value : String) (vt : JsonVT) :
    Except String Container :=
  setAtCore (denull c) (splitDot path) (getKeyValue value vt)

/-- One wildcard write into a direct child, as the source's loop performs
it: `setPathway` mutates the child wrapper in place, so for an object (or
array) child the update is visible in the parent, while for a null child
gabs replaces only the temporary wrapper's data and the parent keeps the
null (the source comments: if the child is a null value, nothing will
happen); a scalar child is a path collision. -/
def applyToChild (value : String) (vt : JsonVT) (suffix : String) :
    Container → Except String Container
  | .null => (setPathway .null suffix value vt).map (fun _ => Container.null)
  | c => setPathway c suffix value vt

/-- Apply an update to every field value of an object, left to right,
stopping at the first error. -/
def updateFields (g : Container → Except String Container) :
    List (String × Container) → Except String (List (String × Container))
  | [] => .ok []
  | (k, v) :: rest =>
    match g v with
    | .error e => .error e
    | .ok r =>
      match updateFields g rest with
      | .error e => .error e
      | .ok rs => .ok ((k, r) :: rs)

/-- Apply an update to every element of an array, left to right, stopping
at the first error. -/
def updateItems (g : Container → Except String Container) :
    List Container → Except String (List Container)
  | [] => .ok []
  | v :: rest =>
    match g v with
    | .error e => .error e
    | .ok r =>
      match updateItems g rest with
      | .error e => .error e
      | .ok rs => .ok (r :: rs)

/-- Apply an update to each direct child of a node (a node without
children is left untouched: zero writes). -/
def Container.updateChildren (c : Container)
    (g : Container → Except String Container) : Except String Container :=
  match c with
  | .obj fs =>
    match updateFields g fs with
    | .ok fs2 => .ok (.obj fs2)
    | .error e => .error e
  | .arr xs =>
    match updateItems g xs with
    | .ok xs2 => .ok (.arr xs2)
    | .error e => .error e
  | c => .ok c

/-- Navigate to a path and apply an update to the node found there,
rebuilding the tree around the result; when the path does not resolve the
document is returned unchanged (gabs `Path` yields a nil container whose
`Children` is empty, so the source's loop body never runs). -/
def mapAt : Container → List String → (Container → Except String Container) →
    Except String Container
  | c, [], g => g c
  | .obj fs, k :: ks, g =>
    match lookupField fs k with
    | some child =>
      match mapAt child ks g with
      | .ok r => .ok (.obj (setField fs k r))
      | .error e => .error e
    | none => .ok (.obj fs)
  | .arr xs, k :: ks, g =>
    match arrIndex k xs.length with
    | some i =>
      match mapAt (xs.getD i Container.null) ks g with
      | .ok r => .ok (.arr (xs.set i r))
      | .error e => .error e
    | none => .ok (.arr xs)
  | c, _ :: _, _ => .ok c

/-! ### The two functions under verification -/

/-- `LookupConfigurationValue` of the source: if the rule's value does not
match the placeholder pattern return it unchanged with the declared type;
otherwise extract the first match's capture (via `ReplaceAllString` of the
found string with the group-one template), split it on dots, camel-case
each segment, and look the path up in the daemon configuration.  A missing
key falls back to the original value; any other lookup failure is
propagated (the source wraps it with a stack, preserving the message); a
found value is substituted into the original value for every placeholder
occurrence, and the rule's declared type is returned in every successful
case. -/
def LookupConfigurationValue (f : ConfigurationFile)
    (cfr : ConfigurationFileReplacement) : Except String (String × JsonVT) :=
  if regexHasMatch cfr.Value then
    match f.configuration ((splitDot (regexReplaceAll (regexFindString cfr.Value) "$1")).map toCamel) with
    | .fault e => .error e
    | .notFound => .ok (cfr.Value, cfr.ValueType)
    | .found m _ => .ok (regexReplaceAll cfr.Value m, cfr.ValueType)
  else
    .ok (cfr.Value, cfr.ValueType)

/-- The wildcard branch of the source's loop body: split the match path on
the first `.*`, trim dots from both halves, locate the prefix, and run one
`setPathway` of the dot-trimmed suffix on each direct child of the node
found there. -/
def wildcardApply (parsed : Container) (mtch value : String) (dt : JsonVT) :
    Except String Container :=
  match splitFirstList dotStar mtch.data with
  | some (pre, suf) =>
    mapAt parsed (splitDotL (trimCharList '.' pre))
      (fun node => node.updateChildren (applyToChild value dt ⟨trimCharList '.' suf⟩))
  | none => .ok parsed

/-- The rule loop of `IterateOverJson`: resolve each rule's value, abort
on a lookup error, then apply the wildcard fan-out or the single
`setPathway` write, aborting on a write error. -/
def iterRules (f : ConfigurationFile) :
    List ConfigurationFileReplacement → Container → Except String Container
  | [], parsed => .ok parsed
  | v :: rest, parsed =>
    match LookupConfigurationValue f v with
    | .error e => .error e
    | .ok (value, dt) =>
      if containsDotStar v.Match then
        match wildcardApply parsed v.Match value dt with
        | .error e => .error e
        | .ok parsed2 => iterRules f rest parsed2
      else
        match setPathway parsed v.Match value dt with
        | .error e => .error e
        | .ok parsed2 => iterRules f rest parsed2

/-- `IterateOverJson` of the source, on the already-parsed document tree
(the byte-level JSON parse that precedes the loop is the external
`gabs.ParseJSON`). -/
def IterateOverJson (f : ConfigurationFile) (parsed : Container) :
    Except String Container :=
  iterRules f f.Replace parsed

/-- Shape of a `\s?` consumption: empty or one whitespace character. -/
def spOK (sp : List Char) : Prop := sp = [] ∨ ∃ c, isSpaceRE c = true ∧ sp = [c]

/-! ### Concrete instances used by the spec's scenarios and by witnesses -/

/-- Host store holding only `X`, used to show a two-space placeholder is
not even looked up. -/
def hostOnlyX : List String → GetResult :=
  fun p => if p = ["X"] then .found "resolved" .String else .notFound

/-- A rule whose value carries two whitespace characters after the opening
braces (outside the `\s?` wire format). -/
def cfrTwoSpaces : ConfigurationFileReplacement :=
  ⟨"k", "\x7b\x7b  config.x \x7d\x7d", .String⟩

/-- Processor for the two-space rule. -/
def fTwoSpaces : ConfigurationFile := ⟨[cfrTwoSpaces], hostOnlyX⟩

/-- Host store answering `X` with a number, for the partial-string
substitution witness. -/
def hostXNum : List String → GetResult :=
  fun p => if p = ["X"] then .found "25566" .Number else .notFound

/-- A rule with a placeholder embedded between literal text. -/
def cfrPartial : ConfigurationFileReplacement :=
  ⟨"k", "prefix-\x7b\x7bconfig.x\x7d\x7dsuffix", .String⟩

/-- Processor for the partial-string rule. -/
def fPartial : ConfigurationFile := ⟨[cfrPartial], hostXNum⟩

/-- Processor whose host store is entirely empty. -/
def fEmptyHost : ConfigurationFile := ⟨[cfrPartial], fun _ => .notFound⟩

/-- The spec's server document `server.port = 25565`. -/
def serverDoc : Container := .obj [("server", .obj [("port", .num 25565)])]

/-- The spec's port rule: a number-typed placeholder for `docker.port`. -/
def portRule : ConfigurationFileReplacement :=
  ⟨"server.port", "\x7b\x7b config.docker.port \x7d\x7d", .Number⟩

/-- Host store holding `Docker.Port = 25566` under the camel-case keys. -/
def hostDocker : List String → GetResult :=
  fun p => if p = ["Docker", "Port"] then .found "25566" .Number else .notFound

/-- Processor for the found-port scenario. -/
def fDocker : ConfigurationFile := ⟨[portRule], hostDocker⟩

/-- Processor for the missing-port scenario (host lacks `Docker.Port`). -/
def fNoDocker : ConfigurationFile := ⟨[portRule], fun _ => .notFound⟩

/-- The spec's worlds document: two worlds, each with a bind address. -/
def worldsDoc : Container :=
  .obj [("worlds", .obj
    [("world1", .obj [("bind", .str "0.0.0.0")]),
     ("world2", .obj [("bind", .str "0.0.0.0")])])]

/-- The spec's wildcard rule rebinding every world. -/
def worldsRule : ConfigurationFileReplacement := ⟨"worlds.*.bind", "127.0.0.1", .String⟩

/-- Processor for the worlds scenario. -/
def fWorlds : ConfigurationFile := ⟨[worldsRule], fun _ => .notFound⟩

/-- A document with two children under `a`, for the double-wildcard rule. -/
def doubleStarDoc : Container := .obj [("a", .obj [("x", .obj []), ("y", .obj [])])]

/-- A rule whose match path carries two wildcard markers. -/
def doubleStarRule : ConfigurationFileReplacement := ⟨"a.*.b.*.c", "V", .String⟩

/-- Processor for the double-wildcard scenario. -/
def fDoubleStar : ConfigurationFile := ⟨[doubleStarRule], fun _ => .notFound⟩

/-- Host store answering `X` with the text dollar-one, which
`ReplaceAllString` treats as a group reference, not literal text. -/
def hostDollarX : List String → GetResult :=
  fun p => if p = ["X"] then .found "$1" .String else .notFound

/-- A rule with one placeholder between literal text, for the
dollar-expansion counterexample. -/
def cfrDollar : ConfigurationFileReplacement :=
  ⟨"k", "pre\x7b\x7bconfig.x\x7d\x7dpost", .String⟩

/-- Processor for the dollar-valued host store. -/
def fDollar : ConfigurationFile := ⟨[cfrDollar], hostDollarX⟩

/-- A wildcard rule whose prefix resolves to nothing in the worlds
document. -/
def missingRule : ConfigurationFileReplacement := ⟨"missing.*.bind", "127.0.0.1", .String⟩

/-- Processor for the missing-prefix wildcard rule. -/
def fMissing : ConfigurationFile := ⟨[missingRule], fun _ => .notFound⟩

/-- Host store that faults on `Docker.Port`, for the fail-fast law. -/
def hostFaulty : List String → GetResult :=
  fun p => if p = ["Docker", "Port"] then .fault "io fault" else .notFound

/-- A rule with two placeholders naming different paths. -/
def cfrTwoTokens : ConfigurationFileReplacement :=
  ⟨"k", "\x7b\x7bconfig.a\x7d\x7d-\x7b\x7bconfig.b\x7d\x7d", .String⟩

/-- Host store with distinct answers for `A` and `B`. -/
def hostAB : List String → GetResult :=
  fun p =>
    if p = ["A"] then .found "1" .String
    else if p = ["B"] then .found "2" .String
    else .notFound

/-- Host store agreeing with `hostAB` on `A` but not on `B`. -/
def hostAOnly : List String → GetResult :=
  fun p => if p = ["A"] then .found "1" .String else .notFound

/-- Processor for the two-token rule. -/
def fTwoTokens : ConfigurationFile := ⟨[cfrTwoTokens], hostAB⟩

/-- Processor for the two-token rule over the smaller store. -/
def fTwoTokensAOnly : ConfigurationFile := ⟨[cfrTwoTokens], hostAOnly⟩

/-- Host store whose `A` entry is the text dollar-one while `B` is
present with a distinct value. -/
def hostADollarB : List String → GetResult :=
  fun p =>
    if p = ["A"] then .found "$1" .String
    else if p = ["B"] then .found "2" .String
    else .notFound

/-- Processor for the two-token rule over the dollar-valued store. -/
def fTwoTokensDollar : ConfigurationFile := ⟨[cfrTwoTokens], hostADollarB⟩

/-! ### Lemmas about the placeholder matcher -/

theorem consumeOptSpace_app (t : List Char) :
    (consumeOptSpace t).1 ++ (consumeOptSpace t).2 = t := by
  cases t with
  | nil => rfl
  | cons c cs => by_cases hs : isSpaceRE c <;> simp [consumeOptSpace, hs]

theorem consumeOptSpace_spOK (t : List Char) : spOK (consumeOptSpace t).1 := by
  cases t with
  | nil => exact Or.inl rfl
  | cons c cs =>
    by_cases hs : isSpaceRE c
    · exact Or.inr ⟨c, hs, by simp [consumeOptSpace, hs]⟩
    · exact Or.inl (by simp [consumeOptSpace, hs])

theorem consumeOptSpace_of_spOK {sp : List Char} (h : spOK sp) (r : List Char)
    (hr : ∀ c, r.head? = some c → isSpaceRE c = false) :
    consumeOptSpace (sp ++ r) = (sp, r) := by
  rcases h with h | ⟨c, hc, h⟩
  · subst h
    cases r with
    | nil => rfl
    | cons d ds => simp [consumeOptSpace, hr d rfl]
  · subst h
    simp [consumeOptSpace, hc]

theorem dropLit_sound : ∀ {p s r : List Char}, dropLit p s = some r → s = p ++ r
  | [], _, _, h => by simpa [dropLit] using h
  | _ :: _, [], _, h => by simp [dropLit] at h
  | p :: ps, c :: cs, r, h => by
    by_cases hc : c = p
    · simp only [dropLit, if_pos hc] at h
      simpa [hc] using congrArg (List.cons p) (dropLit_sound h)
    · simp [dropLit, hc] at h

theorem dropLit_self : ∀ (p r : List Char), dropLit p (p ++ r) = some r
  | [], _ => rfl
  | c :: ps, r => by simp [dropLit, dropLit_self ps r]

theorem takeWhile_app (p : Char → Bool) :
    ∀ (a b : List Char), (∀ c ∈ a, p c = true) → (∀ c, b.head? = some c → p c = false) →
      (a ++ b).takeWhile p = a ∧ (a ++ b).dropWhile p = b
  | [], b, _, hb => by
    cases b with
    | nil => simp
    | cons c cs => simp [List.takeWhile_cons, List.dropWhile_cons, hb c rfl]
  | a :: as, b, ha, hb => by
    have h1 := ha a (List.mem_cons_self a as)
    have ih := takeWhile_app p as b (fun c hc => ha c (List.mem_cons_of_mem a hc)) hb
    simp [List.takeWhile_cons, List.dropWhile_cons, h1, ih.1, ih.2]

theorem space_not_word {c : Char} (hc : isSpaceRE c = true) : isWordDotDash c = false := by
  have h2 : (((c = ' ' ∨ c = '\t') ∨ c = '\n') ∨ c = '\x0c') ∨ c = '\r' := by
    simpa [isSpaceRE] using hc
  rcases h2 with (((h | h) | h) | h) | h <;> subst h <;> decide

theorem matchAt_decomp {s m cap rest : List Char}
    (h : matchPlaceholderAt s = some (m, cap, rest)) :
    s = m ++ rest ∧ cap ≠ [] ∧ (∀ c ∈ cap, isWordDotDash c = true) ∧
      ∃ sp1 sp2, spOK sp1 ∧ spOK sp2 ∧
        m = '\x7b' :: '\x7b' :: (sp1 ++ configDot ++ cap ++ sp2 ++ ['\x7d', '\x7d']) := by
  unfold matchPlaceholderAt at h
  split at h
  case h_2 => exact absurd h (by simp)
  case h_1 t =>
    split at h
    case h_1 => exact absurd h (by simp)
    case h_2 t2 hdl =>
      split at h
      case isTrue => exact absurd h (by simp)
      case isFalse hcap =>
        split at h
        case h_2 => exact absurd h (by simp)
        case h_1 r heq2 =>
          obtain ⟨hm, hcapeq, hrest⟩ :
              _ = m ∧ t2.takeWhile isWordDotDash = cap ∧ r = rest := by
            simpa using h
          have ht : (consumeOptSpace t).1 ++ (consumeOptSpace t).2 = t :=
            consumeOptSpace_app t
          have ht1 := dropLit_sound hdl
          have ht2 : t2.takeWhile isWordDotDash ++ t2.dropWhile isWordDotDash = t2 :=
            List.takeWhile_append_dropWhile isWordDotDash t2
          have ht3 : (consumeOptSpace (t2.dropWhile isWordDotDash)).1
              ++ (consumeOptSpace (t2.dropWhile isWordDotDash)).2
              = t2.dropWhile isWordDotDash :=
            consumeOptSpace_app (t2.dropWhile isWordDotDash)
          rw [heq2] at ht3
          refine ⟨?_, ?_, ?_, (consumeOptSpace t).1,
            (consumeOptSpace (t2.dropWhile isWordDotDash)).1,
            consumeOptSpace_spOK t, consumeOptSpace_spOK (t2.dropWhile isWordDotDash),
            by rw [← hm, hcapeq]; simp [List.append_assoc]⟩
          · rw [← hm, ← hrest, hcapeq]
            conv_lhs => rw [← ht, ht1, ← ht2, ← ht3, hcapeq]
            simp
          · rw [← hcapeq]
            exact hcap
          · intro c hc
            rw [← hcapeq] at hc
            exact List.mem_takeWhile_imp hc

theorem matchAt_rematch {sp1 sp2 cap : List Char} (rest : List Char)
    (h1 : spOK sp1) (h2 : spOK sp2) (hcap : cap ≠ [])
    (hcapc : ∀ c ∈ cap, isWordDotDash c = true) :
    matchPlaceholderAt
        (('\x7b' :: '\x7b' :: (sp1 ++ configDot ++ cap ++ sp2 ++ ['\x7d', '\x7d'])) ++ rest)
      = some ('\x7b' :: '\x7b' :: (sp1 ++ configDot ++ cap ++ sp2 ++ ['\x7d', '\x7d']),
              cap, rest) := by
  have hstep1 : consumeOptSpace (sp1 ++ (configDot ++ (cap ++ (sp2 ++ ('\x7d' :: '\x7d' :: rest)))))
      = (sp1, configDot ++ (cap ++ (sp2 ++ ('\x7d' :: '\x7d' :: rest)))) :=
    consumeOptSpace_of_spOK h1 _ (by
      intro c hc
      simp [configDot] at hc
      subst hc
      decide)
  have hstep3 := takeWhile_app isWordDotDash cap (sp2 ++ ('\x7d' :: '\x7d' :: rest)) hcapc (by
    rcases h2 with h | ⟨c, hc, h⟩
    · subst h
      intro c hc
      simp at hc
      subst hc
      decide
    · subst h
      intro d hd
      simp at hd
      subst hd
      exact space_not_word hc)
  have hstep4 : consumeOptSpace (sp2 ++ ('\x7d' :: '\x7d' :: rest))
      = (sp2, '\x7d' :: '\x7d' :: rest) :=
    consumeOptSpace_of_spOK h2 _ (by
      intro c hc
      simp at hc
      subst hc
      decide)
  have e1 : (consumeOptSpace (sp1 ++ (configDot ++ (cap ++ (sp2 ++ ('\x7d' :: '\x7d' :: rest)))))).1
      = sp1 := by rw [hstep1]
  have e2 : (consumeOptSpace (sp1 ++ (configDot ++ (cap ++ (sp2 ++ ('\x7d' :: '\x7d' :: rest)))))).2
      = configDot ++ (cap ++ (sp2 ++ ('\x7d' :: '\x7d' :: rest))) := by rw [hstep1]
  have e3 : (consumeOptSpace (sp2 ++ ('\x7d' :: '\x7d' :: rest))).1 = sp2 := by rw [hstep4]
  have e4 : (consumeOptSpace (sp2 ++ ('\x7d' :: '\x7d' :: rest))).2
      = '\x7d' :: '\x7d' :: rest := by rw [hstep4]
  have hdl := dropLit_self configDot (cap ++ (sp2 ++ ('\x7d' :: '\x7d' :: rest)))
  have hA : (('\x7b' :: '\x7b' :: (sp1 ++ configDot ++ cap ++ sp2 ++ ['\x7d', '\x7d'])) ++ rest)
      = '\x7b' :: '\x7b' :: (sp1 ++ (configDot ++ (cap ++ (sp2 ++ ('\x7d' :: '\x7d' :: rest))))) := by
    simp
  rw [hA]
  simp only [matchPlaceholderAt, e2, hdl, hstep3.1, hstep3.2, if_neg hcap, e1, e3, e4]

/-! ### Lemmas about leftmost search, replacement and template expansion -/

theorem findPlaceholder_decomp :
    ∀ {s pre m cap rest : List Char},
      findPlaceholder s = some (pre, m, cap, rest) →
      s = pre ++ m ++ rest ∧ matchPlaceholderAt (m ++ rest) = some (m, cap, rest)
  | [], _, _, _, _, h => by simp [findPlaceholder] at h
  | c :: cs, pre, m, cap, rest, h => by
    unfold findPlaceholder at h
    split at h
    case h_1 m2 cap2 rest2 hm =>
      obtain ⟨h1, h2, h3, h4⟩ : [] = pre ∧ m2 = m ∧ cap2 = cap ∧ rest2 = rest := by
        simpa using h
      subst h1; subst h2; subst h3; subst h4
      have hd := matchAt_decomp hm
      refine ⟨by simpa using hd.1, ?_⟩
      rw [← hd.1]
      exact hm
    case h_2 hm =>
      split at h
      case h_1 pre2 m2 cap2 rest2 hf =>
        obtain ⟨h1, h2, h3, h4⟩ : c :: pre2 = pre ∧ m2 = m ∧ cap2 = cap ∧ rest2 = rest := by
          simpa using h
        subst h1; subst h2; subst h3; subst h4
        have ih := findPlaceholder_decomp hf
        exact ⟨by simp [ih.1], ih.2⟩
      case h_2 => simp at h

theorem findPlaceholder_of_matchAt {s m cap rest : List Char}
    (h : matchPlaceholderAt s = some (m, cap, rest)) :
    findPlaceholder s = some ([], m, cap, rest) := by
  cases s with
  | nil => simp [matchPlaceholderAt] at h
  | cons c cs => simp [findPlaceholder, h]

theorem findPlaceholder_isSome :
    ∀ (pre rest : List Char) {x}, matchPlaceholderAt rest = some x →
      (findPlaceholder (pre ++ rest)).isSome = true
  | [], rest, x, hm => by
    rw [List.nil_append]
    cases rest with
    | nil => simp [matchPlaceholderAt] at hm
    | cons c cs => simp [findPlaceholder, hm]
  | c :: pre2, rest, x, hm => by
    have ih := findPlaceholder_isSome pre2 rest hm
    rw [List.cons_append]
    rcases h1 : matchPlaceholderAt (c :: (pre2 ++ rest)) with _ | y
    · rcases h2 : findPlaceholder (pre2 ++ rest) with _ | z
      · rw [h2] at ih
        simp at ih
      · rcases z with ⟨a, b, d, e⟩
        simp [findPlaceholder, h1, h2]
    · rcases y with ⟨a, b, d⟩
      simp [findPlaceholder, h1]

theorem findPlaceholder_rest_len {s pre m cap rest : List Char}
    (h : findPlaceholder s = some (pre, m, cap, rest)) : rest.length < s.length := by
  have hd := findPlaceholder_decomp h
  obtain ⟨_, _, _, sp1, sp2, _, _, hm⟩ := matchAt_decomp hd.2
  rw [hd.1, hm]
  simp
  omega

theorem replaceFuel_congr (repl : List Char) :
    ∀ (f1 f2 : Nat) (s : List Char), s.length ≤ f1 → s.length ≤ f2 →
      replaceFuel repl f1 s = replaceFuel repl f2 s
  | 0, f2, s, h1, _ => by
    have hs : s = [] := List.length_eq_zero.mp (Nat.le_zero.mp h1)
    subst hs
    cases f2 <;> simp [replaceFuel, findPlaceholder]
  | f1 + 1, 0, s, _, h2 => by
    have hs : s = [] := List.length_eq_zero.mp (Nat.le_zero.mp h2)
    subst hs
    simp [replaceFuel, findPlaceholder]
  | f1 + 1, f2 + 1, s, h1, h2 => by
    rcases hf : findPlaceholder s with _ | ⟨pre, m, cap, rest⟩
    · simp [replaceFuel, hf]
    · have hlen := findPlaceholder_rest_len hf
      have ih := replaceFuel_congr repl f1 f2 rest (by omega) (by omega)
      simp [replaceFuel, hf, ih]

theorem replaceAll_nomatch {repl s : List Char} (h : findPlaceholder s = none) :
    replaceAllChars repl s = s := by
  unfold replaceAllChars
  cases hl : s.length with
  | zero => rfl
  | succ n => simp [replaceFuel, h]

theorem replaceAll_step {repl s pre m cap rest : List Char}
    (h : findPlaceholder s = some (pre, m, cap, rest)) :
    replaceAllChars repl s = pre ++ expandAll m cap repl ++ replaceAllChars repl rest := by
  have hlen := findPlaceholder_rest_len h
  unfold replaceAllChars
  cases hl : s.length with
  | zero =>
    have hs : s = [] := List.length_eq_zero.mp hl
    subst hs
    simp [findPlaceholder] at h
  | succ n =>
    rw [hl] at hlen
    simp only [replaceFuel, h]
    rw [replaceFuel_congr repl n rest.length rest (by omega) (Nat.le_refl rest.length)]

theorem expandFuel_nodollar (g0 g1 : List Char) :
    ∀ (fuel : Nat) (t : List Char), (∀ c ∈ t, c ≠ '$') → expandFuel g0 g1 fuel t = t
  | 0, _, _ => rfl
  | _ + 1, [], _ => rfl
  | fuel + 1, c :: rest, hd => by
    have hc : c ≠ '$' := hd c (List.mem_cons_self c rest)
    have ih := expandFuel_nodollar g0 g1 fuel rest (fun d h2 => hd d (List.mem_cons_of_mem c h2))
    simp [expandFuel, if_neg hc, ih]

theorem expandAll_nodollar {g0 g1 t : List Char} (h : ∀ c ∈ t, c ≠ '$') :
    expandAll g0 g1 t = t :=
  expandFuel_nodollar g0 g1 t.length t h

theorem expandAll_dollar_one (g0 g1 : List Char) : expandAll g0 g1 ['$', '1'] = g1 := by
  have h1 : extractName ['1'] = some (['1'], []) := by decide
  have h2 : templNum ['1'] = some 1 := by decide
  simp [expandAll, expandFuel, templGroup, h1, h2]

theorem findString_replace_one {v pre m cap rest : List Char}
    (h : findPlaceholder v = some (pre, m, cap, rest)) :
    replaceAllChars ['$', '1'] m = cap := by
  have hd := findPlaceholder_decomp h
  obtain ⟨_, hcapne, hcapc, sp1, sp2, hsp1, hsp2, hm⟩ := matchAt_decomp hd.2
  have hre : matchPlaceholderAt (m ++ []) = some (m, cap, []) := by
    rw [hm]
    exact matchAt_rematch [] hsp1 hsp2 hcapne hcapc
  rw [List.append_nil] at hre
  have hfp := findPlaceholder_of_matchAt hre
  rw [replaceAll_step hfp]
  rw [show replaceAllChars ['$', '1'] [] = [] from rfl]
  simp [expandAll_dollar_one]

theorem lookup_path_eq {v : String} {pre m cap rest : List Char}
    (h : findPlaceholder v.data = some (pre, m, cap, rest)) :
    regexReplaceAll (regexFindString v) "$1" = ⟨cap⟩ := by
  have h1 : regexFindString v = ⟨m⟩ := by simp [regexFindString, h]
  rw [h1]
  simp only [regexReplaceAll]
  rw [findString_replace_one h]

/-! ### Case lemmas for the resolver -/

theorem lookup_case_found {f : ConfigurationFile} {cfr : ConfigurationFileReplacement}
    {pre m cap rest : List Char} {hostVal : String} {dt2 : JsonVT}
    (h : findPlaceholder cfr.Value.data = some (pre, m, cap, rest))
    (hl : f.configuration ((splitDot ⟨cap⟩).map toCamel) = .found hostVal dt2) :
    LookupConfigurationValue f cfr = .ok (regexReplaceAll cfr.Value hostVal, cfr.ValueType) := by
  unfold LookupConfigurationValue
  rw [if_pos (show regexHasMatch cfr.Value = true by simp [regexHasMatch, h])]
  rw [lookup_path_eq h]
  simp [hl]

theorem lookup_case_notFound {f : ConfigurationFile} {cfr : ConfigurationFileReplacement}
    {pre m cap rest : List Char}
    (h : findPlaceholder cfr.Value.data = some (pre, m, cap, rest))
    (hl : f.configuration ((splitDot ⟨cap⟩).map toCamel) = .notFound) :
    LookupConfigurationValue f cfr = .ok (cfr.Value, cfr.ValueType) := by
  unfold LookupConfigurationValue
  rw [if_pos (show regexHasMatch cfr.Value = true by simp [regexHasMatch, h])]
  rw [lookup_path_eq h]
  simp [hl]

theorem lookup_case_fault {f : ConfigurationFile} {cfr : ConfigurationFileReplacement}
    {pre m cap rest : List Char} {e : String}
    (h : findPlaceholder cfr.Value.data = some (pre, m, cap, rest))
    (hl : f.configuration ((splitDot ⟨cap⟩).map toCamel) = .fault e) :
    LookupConfigurationValue f cfr = .error e := by
  unfold LookupConfigurationValue
  rw [if_pos (show regexHasMatch cfr.Value = true by simp [regexHasMatch, h])]
  rw [lookup_path_eq h]
  simp [hl]

theorem lookup_case_nomatch {f : ConfigurationFile} {cfr : ConfigurationFileReplacement}
    (h : findPlaceholder cfr.Value.data = none) :
    LookupConfigurationValue f cfr = .ok (cfr.Value, cfr.ValueType) := by
  unfold LookupConfigurationValue
  rw [if_neg (show ¬ regexHasMatch cfr.Value = true by simp [regexHasMatch, h])]

/-! ### Claim theorems for the resolver -/

/-- C1 fails as stated: the substitution is `ReplaceAllString`, which
treats dollar signs in the replacement (the stringified host value) as
group references.  With host value the text dollar-one, the resolver
inserts the placeholder's own capture instead of the host value verbatim:
the value `pre..config.x..post` resolves to `prexpost`, not to the text
the claim predicts (the host value spliced in place). -/
theorem C1_counterexample :
    LookupConfigurationValue fDollar cfrDollar = .ok ("prexpost", JsonVT.String) ∧
    ("prexpost" : String) ≠ "pre$1post" ∧
    hostDollarX ["X"] = .found "$1" JsonVT.String := by
  exact ⟨rfl, by decide, by decide⟩

/-- C1 amended: for every rule whose value contains a placeholder whose
converted path is found in the host configuration, the resolver returns
the original value with the placeholder substring replaced in place by
the Go-template expansion of the stringified host value against the
match's groups (surrounding literal text preserved), together with the
rule's originally declared value type — never the host value's type —
and no error.  For a host value containing no dollar character the
expansion is the host value verbatim, so partial-string placeholders
receive it unchanged (second conjunct).  Both clauses are stated for a
value whose remainder after the placeholder holds no further
placeholder. -/
theorem C1_amended_found_substitution_is_template_expansion :
    (∀ (f : ConfigurationFile) (cfr : ConfigurationFileReplacement)
       (pre m cap post : List Char) (hostVal : String) (dt2 : JsonVT),
       findPlaceholder cfr.Value.data = some (pre, m, cap, post) →
       findPlaceholder post = none →
       f.configuration ((splitDot ⟨cap⟩).map toCamel) = .found hostVal dt2 →
       LookupConfigurationValue f cfr =
         .ok (⟨pre ++ expandAll m cap hostVal.data ++ post⟩, cfr.ValueType)) ∧
    (∀ (f : ConfigurationFile) (cfr : ConfigurationFileReplacement)
       (pre m cap post : List Char) (hostVal : String) (dt2 : JsonVT),
       findPlaceholder cfr.Value.data = some (pre, m, cap, post) →
       findPlaceholder post = none →
       (∀ c ∈ hostVal.data, c ≠ '$') →
       f.configuration ((splitDot ⟨cap⟩).map toCamel) = .found hostVal dt2 →
       LookupConfigurationValue f cfr =
         .ok (⟨pre ++ hostVal.data ++ post⟩, cfr.ValueType)) := by
  have hgen : ∀ (f : ConfigurationFile) (cfr : ConfigurationFileReplacement)
      (pre m cap post : List Char) (hostVal : String) (dt2 : JsonVT),
      findPlaceholder cfr.Value.data = some (pre, m, cap, post) →
      findPlaceholder post = none →
      f.configuration ((splitDot ⟨cap⟩).map toCamel) = .found hostVal dt2 →
      LookupConfigurationValue f cfr =
        .ok (⟨pre ++ expandAll m cap hostVal.data ++ post⟩, cfr.ValueType) := by
    intro f cfr pre m cap post hostVal dt2 hfind hsingle hlook
    rw [lookup_case_found hfind hlook]
    have hrep : regexReplaceAll cfr.Value hostVal =
        ⟨pre ++ expandAll m cap hostVal.data ++ post⟩ := by
      simp only [regexReplaceAll]
      rw [replaceAll_step hfind, replaceAll_nomatch hsingle]
    rw [hrep]
  refine ⟨hgen, ?_⟩
  intro f cfr pre m cap post hostVal dt2 hfind hsingle hdollar hlook
  have h1 := hgen f cfr pre m cap post hostVal dt2 hfind hsingle hlook
  rw [expandAll_nodollar hdollar] at h1
  exact h1

/-- Witness for C1's amended statement: the dollar-free clause on the
partial-string rule with host value `25566`, and the general clause on the
dollar-one host value. -/
theorem C1_witness :
    LookupConfigurationValue fPartial cfrPartial =
      .ok (⟨"prefix-".data ++ "25566".data ++ "suffix".data⟩, JsonVT.String) ∧
    LookupConfigurationValue fDollar cfrDollar =
      .ok (⟨"pre".data
            ++ expandAll "\x7b\x7bconfig.x\x7d\x7d".data "x".data "$1".data
            ++ "post".data⟩, JsonVT.String) :=
  ⟨C1_amended_found_substitution_is_template_expansion.2 fPartial cfrPartial
     "prefix-".data "\x7b\x7bconfig.x\x7d\x7d".data "x".data "suffix".data "25566" .Number
     (by decide) (by decide) (by decide) (by decide),
   C1_amended_found_substitution_is_template_expansion.1 fDollar cfrDollar
     "pre".data "\x7b\x7bconfig.x\x7d\x7d".data "x".data "post".data "$1" .String
     (by decide) (by decide) (by decide)⟩

/-- C3: for every rule whose value contains a placeholder and whose
converted lookup path is reported missing by the host configuration, the
resolver returns the original literal value unchanged and the rule's
declared value type, and no error surfaces. -/
theorem C3_missing_key_silent_fallback
    (f : ConfigurationFile) (cfr : ConfigurationFileReplacement)
    (pre m cap post : List Char)
    (hfind : findPlaceholder cfr.Value.data = some (pre, m, cap, post))
    (hlook : f.configuration ((splitDot ⟨cap⟩).map toCamel) = .notFound) :
    LookupConfigurationValue f cfr = .ok (cfr.Value, cfr.ValueType) :=
  lookup_case_notFound hfind hlook

/-- Witness for C3: the partial-string rule against an empty host store
comes back literally unchanged. -/
theorem C3_witness :
    LookupConfigurationValue fEmptyHost cfrPartial =
      .ok ("prefix-\x7b\x7bconfig.x\x7d\x7dsuffix", JsonVT.String) :=
  C3_missing_key_silent_fallback fEmptyHost cfrPartial
    "prefix-".data "\x7b\x7bconfig.x\x7d\x7d".data "x".data "suffix".data
    (by decide) (by decide)

/-- C4 fails as stated: the wire format allows at most one whitespace
character on each side (`\s?`), not any amount.  A value containing the
token with two spaces after the braces is not detected as a placeholder,
and the resolver returns it untouched even though the host store holds the
referenced path. -/
theorem C4_counterexample :
    regexHasMatch "\x7b\x7b  config.x \x7d\x7d" = false ∧
    hostOnlyX ["X"] = .found "resolved" JsonVT.String ∧
    LookupConfigurationValue fTwoSpaces cfrTwoSpaces =
      .ok ("\x7b\x7b  config.x \x7d\x7d", JsonVT.String) := by
  refine ⟨by decide, by decide, ?_⟩
  rfl

/-- C4 amended: a rule's value is treated as placeholder-bearing exactly
when it contains a token of the wire format with at most one whitespace
character on each side of the path.  Every value with no such token is
returned unchanged with the declared type and no error, and every value
containing such a token (zero or one whitespace character per side) is
detected. -/
theorem C4_amended_detection_iff_wire_format :
    (∀ (f : ConfigurationFile) (cfr : ConfigurationFileReplacement),
       findPlaceholder cfr.Value.data = none →
       LookupConfigurationValue f cfr = .ok (cfr.Value, cfr.ValueType)) ∧
    (∀ (pre sp1 cap sp2 post : List Char), spOK sp1 → spOK sp2 → cap ≠ [] →
       (∀ c ∈ cap, isWordDotDash c = true) →
       regexHasMatch
           ⟨pre ++ (('\x7b' :: '\x7b' :: (sp1 ++ configDot ++ cap ++ sp2 ++ ['\x7d', '\x7d'])) ++ post)⟩
         = true) := by
  constructor
  · intro f cfr h
    exact lookup_case_nomatch h
  · intro pre sp1 cap sp2 post h1 h2 hcap hcapc
    have hm := matchAt_rematch post h1 h2 hcap hcapc
    exact findPlaceholder_isSome pre _ hm

/-- Witness for C4's amended statement: the identity law at a literal
value, and detection of a one-space-per-side token inside surrounding
text. -/
theorem C4_amended_witness :
    LookupConfigurationValue fWorlds worldsRule = .ok ("127.0.0.1", JsonVT.String) ∧
    regexHasMatch
        ⟨"a-".data ++ (('\x7b' :: '\x7b' :: ([' '] ++ configDot ++ "x".data ++ [' '] ++ ['\x7d', '\x7d'])) ++ "-b".data)⟩
      = true :=
  ⟨C4_amended_detection_iff_wire_format.1 fWorlds worldsRule (by decide),
   C4_amended_detection_iff_wire_format.2 "a-".data [' '] "x".data [' '] "-b".data
     (Or.inr ⟨' ', by decide, rfl⟩) (Or.inr ⟨' ', by decide, rfl⟩) (by decide) (by decide)⟩

/-- C9: if the host lookup for a rule fails with any error other than the
key-not-found condition, the whole pass aborts immediately: the error is
propagated to the caller, no document is returned, and no later rule is
resolved or applied (the result is the same error for every tail of rules
and every document). -/
theorem C9_lookup_fault_aborts_whole_pass
    (g : List String → GetResult) (v : ConfigurationFileReplacement)
    (rest : List ConfigurationFileReplacement) (parsed : Container)
    (pre m cap post : List Char) (e : String)
    (hfind : findPlaceholder v.Value.data = some (pre, m, cap, post))
    (hlook : g ((splitDot ⟨cap⟩).map toCamel) = .fault e) :
    IterateOverJson ⟨v :: rest, g⟩ parsed = .error e := by
  have hl : LookupConfigurationValue ⟨v :: rest, g⟩ v = .error e :=
    lookup_case_fault hfind hlook
  simp [IterateOverJson, iterRules, hl]

/-- Witness for C9: a faulting `Docker.Port` lookup aborts a two-rule pass
on the server document even though the second rule alone would apply. -/
theorem C9_witness :
    IterateOverJson ⟨[portRule, worldsRule], hostFaulty⟩ serverDoc = .error "io fault" :=
  C9_lookup_fault_aborts_whole_pass hostFaulty portRule [worldsRule] serverDoc
    "".data "\x7b\x7b config.docker.port \x7d\x7d".data "docker.port".data "".data "io fault"
    (by decide) (by decide)

/-- C10 fails as stated: the tokens are not all replaced by the literal
first-token lookup result — each replacement is template-expanded against
that token's own match groups.  With the first token's lookup result being
the text dollar-one, the two-token value resolves to `a-b` (each token's
own capture), not to the single first-token result spliced at both
places. -/
theorem C10_counterexample :
    LookupConfigurationValue fTwoTokensDollar cfrTwoTokens = .ok ("a-b", JsonVT.String) ∧
    ("a-b" : String) ≠ "$1-$1" ∧
    hostADollarB ["A"] = .found "$1" JsonVT.String ∧
    hostADollarB ["B"] = .found "2" JsonVT.String := by
  exact ⟨rfl, by decide, by decide, by decide⟩

/-- C10 amended: when a rule's value contains two or more placeholder
tokens, only the first token's path is extracted and looked up in the host
configuration (the resolver's outcome depends on the store only at the
first token's converted path — second conjunct), and on a successful
lookup every placeholder token is replaced by the Go-template expansion of
that single first-token result against its own match's groups; whenever
that result contains no dollar character this is the same literal text at
every token, even for tokens naming different configuration paths (third
conjunct, for a two-token value; first conjunct is the concrete two-path
rule resolving to the first path's value twice). -/
theorem C10_amended_first_token_lookup_template_replace :
    (LookupConfigurationValue fTwoTokens cfrTwoTokens = .ok ("1-1", JsonVT.String)) ∧
    (∀ (f f2 : ConfigurationFile) (cfr : ConfigurationFileReplacement)
       (pre m cap post : List Char),
       findPlaceholder cfr.Value.data = some (pre, m, cap, post) →
       f.configuration ((splitDot ⟨cap⟩).map toCamel)
         = f2.configuration ((splitDot ⟨cap⟩).map toCamel) →
       LookupConfigurationValue f cfr = LookupConfigurationValue f2 cfr) ∧
    (∀ (f : ConfigurationFile) (cfr : ConfigurationFileReplacement)
       (pre m cap rest1 pre2 m2 cap2 rest2 : List Char) (hostVal : String) (dt2 : JsonVT),
       findPlaceholder cfr.Value.data = some (pre, m, cap, rest1) →
       findPlaceholder rest1 = some (pre2, m2, cap2, rest2) →
       findPlaceholder rest2 = none →
       (∀ c ∈ hostVal.data, c ≠ '$') →
       f.configuration ((splitDot ⟨cap⟩).map toCamel) = .found hostVal dt2 →
       LookupConfigurationValue f cfr =
         .ok (⟨pre ++ hostVal.data ++ (pre2 ++ hostVal.data ++ rest2)⟩, cfr.ValueType)) := by
  refine ⟨rfl, ?_, ?_⟩
  · intro f f2 cfr pre m cap post hfind hagree
    unfold LookupConfigurationValue
    rw [if_pos (show regexHasMatch cfr.Value = true by simp [regexHasMatch, hfind])]
    rw [lookup_path_eq hfind, hagree]
    rw [if_pos (show regexHasMatch cfr.Value = true by simp [regexHasMatch, hfind])]
  · intro f cfr pre m cap rest1 pre2 m2 cap2 rest2 hostVal dt2 hfind1 hfind2 hfind3
      hdollar hlook
    rw [lookup_case_found hfind1 hlook]
    have hrep : regexReplaceAll cfr.Value hostVal =
        ⟨pre ++ hostVal.data ++ (pre2 ++ hostVal.data ++ rest2)⟩ := by
      simp only [regexReplaceAll]
      rw [replaceAll_step hfind1, replaceAll_step hfind2, replaceAll_nomatch hfind3,
          expandAll_nodollar hdollar, expandAll_nodollar hdollar]
    rw [hrep]

/-- Witness for C10's amended statement: the two-token rule resolves
identically over the full store and over the store lacking `B` (only `A`
is consulted), and the two-token clause applied to the concrete rule with
dollar-free result `1` yields `1` at both tokens. -/
theorem C10_witness :
    LookupConfigurationValue fTwoTokens cfrTwoTokens
      = LookupConfigurationValue fTwoTokensAOnly cfrTwoTokens ∧
    LookupConfigurationValue fTwoTokens cfrTwoTokens =
      .ok (⟨"".data ++ "1".data ++ ("-".data ++ "1".data ++ "".data)⟩, JsonVT.String) :=
  ⟨C10_amended_first_token_lookup_template_replace.2.1 fTwoTokens fTwoTokensAOnly
     cfrTwoTokens "".data "\x7b\x7bconfig.a\x7d\x7d".data "a".data
     "-\x7b\x7bconfig.b\x7d\x7d".data (by decide) (by decide),
   C10_amended_first_token_lookup_template_replace.2.2 fTwoTokens cfrTwoTokens
     "".data "\x7b\x7bconfig.a\x7d\x7d".data "a".data "-\x7b\x7bconfig.b\x7d\x7d".data
     "-".data "\x7b\x7bconfig.b\x7d\x7d".data "b".data "".data "1" .String
     (by decide) (by decide) (by decide) (by decide) (by decide)⟩

/-! ### Claim theorems for the scenarios and the coercion -/

/-- C6: on the server document, the number-typed `docker.port` placeholder
rule against a host store holding `Docker.Port = 25566` produces
`server.port = 25566` as an integer, the snake-case path having been
dot-split and camel-cased (`Docker`, `Port`) before lookup. -/
theorem C6_found_port_scenario :
    IterateOverJson fDocker serverDoc
        = .ok (.obj [("server", .obj [("port", .num 25566)])]) ∧
    toCamel "docker" = "Docker" ∧ toCamel "port" = "Port" := by
  refine ⟨rfl, by decide, by decide⟩

/-- C7: on the server document with the host store lacking `Docker.Port`,
the pass does not leave the document unchanged: the fallback literal is
fed through the Number coercion, yields zero, and the output becomes
`server.port = 0` with no error. -/
theorem C7_missing_port_coerces_fallback_to_zero :
    IterateOverJson fNoDocker serverDoc
        = .ok (.obj [("server", .obj [("port", .num 0)])]) ∧
    goAtoi "\x7b\x7b config.docker.port \x7d\x7d" = 0 := by
  exact ⟨rfl, by decide⟩

/-- C8 fails as stated: coercion never errors, but an out-of-range numeric
literal is not a zero-yielding parse failure — `Atoi` saturates at the
64-bit bound and the discarded-error idiom keeps that bound, so the
two-to-the-sixty-third literal coerces to the maximum machine integer,
which is neither zero nor the literal's value. -/
theorem C8_counterexample :
    getKeyValue "9223372036854775808" JsonVT.Number = .num 9223372036854775807 ∧
    (9223372036854775807 : Int) ≠ 0 ∧
    (9223372036854775807 : Int) ≠ 9223372036854775808 := by
  exact ⟨rfl, by decide, by decide⟩

/-- C8 amended: coercion by declared type is total and never errors.
Number coercion parses an optional sign and digit run: a syntactically
invalid literal yields zero, an in-range number yields its value, and an
out-of-range number saturates at the 64-bit extreme rather than yielding
zero.  Boolean coercion is true exactly on the six accepted true
spellings and false on everything else (including parse failures), and
every other declared type yields the raw string unchanged. -/
theorem C8_amended_total_coercion_with_saturation :
    (∀ (s : String) (vt : JsonVT), vt ≠ .Number → vt ≠ .Boolean →
       getKeyValue s vt = .str s) ∧
    (∀ s : String, parseSigned s.data = none → getKeyValue s .Number = .num 0) ∧
    (∀ (s : String) (n : Nat), parseSigned s.data = some (false, n) → (n : Int) ≤ intMax →
       getKeyValue s .Number = .num n) ∧
    getKeyValue "25565" .Number = .num 25565 ∧
    getKeyValue "abc" .Number = .num 0 ∧
    getKeyValue "" .Number = .num 0 ∧
    getKeyValue "12.5" .Number = .num 0 ∧
    getKeyValue "9223372036854775808" .Number = .num 9223372036854775807 ∧
    getKeyValue "-9223372036854775809" .Number = .num (-9223372036854775808) ∧
    getKeyValue "true" .Boolean = .boolV true ∧
    getKeyValue "TRUE" .Boolean = .boolV true ∧
    getKeyValue "yes" .Boolean = .boolV false ∧
    getKeyValue "False" .Boolean = .boolV false := by
  refine ⟨?_, ?_, ?_, rfl, rfl, rfl, rfl, rfl, rfl, rfl, rfl, rfl, rfl⟩
  · intro s vt h1 h2
    cases vt <;> first
      | rfl
      | exact absurd rfl h1
      | exact absurd rfl h2
  · intro s hp
    simp [getKeyValue, goAtoi, hp]
  · intro s n hp hle
    simp only [intMax] at hle
    simp only [getKeyValue, goAtoi, hp, intMax]
    rw [if_neg (by omega)]

/-- Witness for C8's amended statement: the general clauses applied at
concrete inputs — a null-typed raw string, a syntactically invalid
number, and an in-range number. -/
theorem C8_amended_witness :
    getKeyValue "raw" JsonVT.Null = .str "raw" ∧
    getKeyValue "x7" JsonVT.Number = .num 0 ∧
    getKeyValue "42" JsonVT.Number = .num 42 :=
  ⟨C8_amended_total_coercion_with_saturation.1 "raw" .Null (by decide) (by decide),
   C8_amended_total_coercion_with_saturation.2.1 "x7" (by decide),
   C8_amended_total_coercion_with_saturation.2.2.1 "42" 42 (by decide) (by decide)⟩

/-! ### Lemmas about the document tree operations -/

theorem lookupField_setField :
    ∀ (fs : List (String × Container)) (k : String) (v : Container),
      lookupField (setField fs k v) k = some v
  | [], k, v => by simp [setField, lookupField]
  | (k2, w) :: rest, k, v => by
    by_cases h : k2 = k
    · simp [setField, lookupField, h]
    · simp [setField, lookupField, h, lookupField_setField rest k v]

theorem setField_self :
    ∀ (fs : List (String × Container)) (k : String) (v : Container),
      lookupField fs k = some v → setField fs k v = fs
  | [], k, v, h => by simp [lookupField] at h
  | (k2, w) :: rest, k, v, h => by
    by_cases he : k2 = k
    · simp [lookupField, he] at h
      simp [setField, he, h]
    · simp [lookupField, he] at h
      simp [setField, he, setField_self rest k v h]

theorem getD_set_self :
    ∀ (xs : List Container) (i : Nat) (r : Container), i < xs.length →
      (xs.set i r).getD i Container.null = r
  | _ :: _, 0, _, _ => rfl
  | x :: xs, i + 1, r, h => getD_set_self xs i r (by simpa using h)

theorem set_getD_self :
    ∀ (xs : List Container) (i : Nat), i < xs.length →
      xs.set i (xs.getD i Container.null) = xs
  | _ :: _, 0, _ => rfl
  | x :: xs, i + 1, h =>
    congrArg (List.cons x) (set_getD_self xs i (by simpa using h))

theorem updateFields_pointwise {g : Container → Except String Container} :
    ∀ {fs fs2 : List (String × Container)}, updateFields g fs = .ok fs2 →
      fs2.length = fs.length ∧
      ∀ (i : Nat) (hi : i < fs.length) (hi2 : i < fs2.length),
        (fs2.get ⟨i, hi2⟩).1 = (fs.get ⟨i, hi⟩).1 ∧
        g (fs.get ⟨i, hi⟩).2 = .ok (fs2.get ⟨i, hi2⟩).2 := by
  intro fs
  induction fs with
  | nil =>
    intro fs2 h
    simp [updateFields] at h
    subst h
    exact ⟨rfl, fun i hi => absurd hi (by simp)⟩
  | cons kv rest ih =>
    intro fs2 h
    rcases kv with ⟨k, v⟩
    unfold updateFields at h
    rcases hg : g v with e | r <;> rw [hg] at h
    · simp at h
    · rcases hu : updateFields g rest with e | rs <;> rw [hu] at h
      · simp at h
      · have hfs2 : (k, r) :: rs = fs2 := by simpa using h
        subst hfs2
        obtain ⟨hlen, hpt⟩ := ih hu
        refine ⟨by simp [hlen], ?_⟩
        intro i hi hi2
        match i with
        | 0 => exact ⟨rfl, by simpa using hg⟩
        | i + 1 =>
          exact hpt i (by simpa using hi) (by simpa using hi2)

theorem arrIndex_lt {k : String} {len : Nat} {i : Nat}
    (h : arrIndex k len = some i) : i < len := by
  unfold arrIndex at h
  split at h
  · split at h
    · simp at h
      omega
    · simp at h
  · simp at h

theorem updateItems_pointwise {g : Container → Except String Container} :
    ∀ {xs xs2 : List Container}, updateItems g xs = .ok xs2 →
      xs2.length = xs.length ∧
      ∀ (i : Nat) (hi : i < xs.length) (hi2 : i < xs2.length),
        g (xs.get ⟨i, hi⟩) = .ok (xs2.get ⟨i, hi2⟩) := by
  intro xs
  induction xs with
  | nil =>
    intro xs2 h
    simp [updateItems] at h
    subst h
    exact ⟨rfl, fun i hi => absurd hi (by simp)⟩
  | cons v rest ih =>
    intro xs2 h
    unfold updateItems at h
    rcases hg : g v with e | r <;> rw [hg] at h
    · simp at h
    · rcases hu : updateItems g rest with e | rs <;> rw [hu] at h
      · simp at h
      · have hxs2 : r :: rs = xs2 := by simpa using h
        subst hxs2
        obtain ⟨hlen, hpt⟩ := ih hu
        refine ⟨by simp [hlen], ?_⟩
        intro i hi hi2
        match i with
        | 0 => simpa using hg
        | i + 1 => exact hpt i (by simpa using hi) (by simpa using hi2)

theorem mapAt_missing :
    ∀ (path : List String) (c : Container) (g : Container → Except String Container),
      Container.searchSeg c path = none → mapAt c path g = .ok c
  | [], c, g, h => by simp [Container.searchSeg] at h
  | k :: ks, c, g, h => by
    cases c with
    | obj fs =>
      rcases hlf : lookupField fs k with _ | child
      · simp [mapAt, hlf]
      · simp only [Container.searchSeg, hlf] at h
        have ih := mapAt_missing ks child g h
        simp [mapAt, hlf, ih, setField_self fs k child hlf]
    | arr xs =>
      rcases hix : arrIndex k xs.length with _ | i
      · simp [mapAt, hix]
      · simp only [Container.searchSeg, hix] at h
        have ih := mapAt_missing ks (xs.getD i Container.null) g h
        simp only [mapAt, hix, ih, set_getD_self xs i (arrIndex_lt hix)]
    | null => simp [mapAt]
    | boolV b => simp [mapAt]
    | num n => simp [mapAt]
    | str s => simp [mapAt]

theorem mapAt_id :
    ∀ (path : List String) (c : Container) (g : Container → Except String Container)
      (node : Container),
      Container.searchSeg c path = some node → g node = .ok node →
      mapAt c path g = .ok c
  | [], c, g, node, h, hg => by
    have hc : c = node := by simpa [Container.searchSeg] using h
    subst hc
    simpa [mapAt] using hg
  | k :: ks, c, g, node, h, hg => by
    cases c with
    | obj fs =>
      rcases hlf : lookupField fs k with _ | child
      · simp [Container.searchSeg, hlf] at h
      · simp only [Container.searchSeg, hlf] at h
        have ih := mapAt_id ks child g node h hg
        simp [mapAt, hlf, ih, setField_self fs k child hlf]
    | arr xs =>
      rcases hix : arrIndex k xs.length with _ | i
      · simp [Container.searchSeg, hix] at h
      · simp only [Container.searchSeg, hix] at h
        have ih := mapAt_id ks (xs.getD i Container.null) g node h hg
        simp only [mapAt, hix, ih, set_getD_self xs i (arrIndex_lt hix)]
    | null => simp [Container.searchSeg] at h
    | boolV b => simp [Container.searchSeg] at h
    | num n => simp [Container.searchSeg] at h
    | str s => simp [Container.searchSeg] at h

theorem mapAt_found :
    ∀ (path : List String) (c : Container) (g : Container → Except String Container)
      (node node2 : Container),
      Container.searchSeg c path = some node → g node = .ok node2 →
      ∃ res, mapAt c path g = .ok res ∧ Container.searchSeg res path = some node2
  | [], c, g, node, node2, h, hg => by
    have hc : c = node := by simpa [Container.searchSeg] using h
    subst hc
    exact ⟨node2, by simpa [mapAt] using hg, by simp [Container.searchSeg]⟩
  | k :: ks, c, g, node, node2, h, hg => by
    cases c with
    | obj fs =>
      rcases hlf : lookupField fs k with _ | child
      · simp [Container.searchSeg, hlf] at h
      · simp only [Container.searchSeg, hlf] at h
        obtain ⟨res1, hmap, hsearch⟩ := mapAt_found ks child g node node2 h hg
        refine ⟨.obj (setField fs k res1), by simp [mapAt, hlf, hmap], ?_⟩
        simp only [Container.searchSeg, lookupField_setField fs k res1]
        exact hsearch
    | arr xs =>
      rcases hix : arrIndex k xs.length with _ | i
      · simp [Container.searchSeg, hix] at h
      · simp only [Container.searchSeg, hix] at h
        obtain ⟨res1, hmap, hsearch⟩ :=
          mapAt_found ks (xs.getD i Container.null) g node node2 h hg
        have hlt := arrIndex_lt hix
        refine ⟨.arr (xs.set i res1), by simp only [mapAt, hix, hmap], ?_⟩
        have hix2 : arrIndex k (xs.set i res1).length = some i := by
          rw [List.length_set]
          exact hix
        simp only [Container.searchSeg, hix2, getD_set_self xs i res1 hlt]
        exact hsearch
    | null => simp [Container.searchSeg] at h
    | boolV b => simp [Container.searchSeg] at h
    | num n => simp [Container.searchSeg] at h
    | str s => simp [Container.searchSeg] at h

theorem splitFirstList_decomp (sep : List Char) :
    ∀ {s pre suf : List Char}, splitFirstList sep s = some (pre, suf) →
      s = pre ++ sep ++ suf ∧ splitFirstList sep pre = none
  | [], pre, suf, h => by simp [splitFirstList] at h
  | c :: cs, pre, suf, h => by
    unfold splitFirstList at h
    rcases hdl : dropLit sep (c :: cs) with _ | rest <;> rw [hdl] at h
    · rcases hsp : splitFirstList sep cs with _ | p <;> rw [hsp] at h
      · simp at h
      · rcases p with ⟨pre2, suf2⟩
        obtain ⟨h1, h2⟩ : c :: pre2 = pre ∧ suf2 = suf := by simpa using h
        subst h1; subst h2
        obtain ⟨ih1, ih2⟩ := splitFirstList_decomp sep hsp
        refine ⟨by simp [ih1], ?_⟩
        unfold splitFirstList
        rcases hdl2 : dropLit sep (c :: pre2) with _ | r2
        · rw [ih2]
          rfl
        · exfalso
          have he : c :: pre2 = sep ++ r2 := dropLit_sound hdl2
          have hcs : c :: cs = sep ++ (r2 ++ (sep ++ suf2)) := by
            have h3 : c :: cs = (c :: pre2) ++ (sep ++ suf2) := by
              rw [ih1]
              simp
            rw [h3, he]
            simp
          have hds : dropLit sep (c :: cs) = some (r2 ++ (sep ++ suf2)) := by
            rw [hcs]
            exact dropLit_self ..
          rw [hds] at hdl
          simp at hdl
    · obtain ⟨h1, h2⟩ : [] = pre ∧ rest = suf := by simpa using h
      subst h1; subst h2
      exact ⟨by simpa using dropLit_sound hdl, rfl⟩

/-! ### Claim theorems for the wildcard pass -/

/-- C2: a wildcard rule fans out into exactly one write per direct child
of the node at the dot-trimmed prefix, each write running the same
dot-trimmed suffix relative to that child; a prefix resolving to a missing
or null node produces zero writes and no error.  Conjunct one is the
spec's worlds scenario; the remaining conjuncts state the law for a
single-rule pass over any document: no-op for a missing prefix, no-op for
a null prefix, for an object prefix node whose per-child writes all
succeed a result whose node at the prefix has the same keys in the same
order with each child's value the outcome of the one suffix write on that
child, no-op (zero writes, no error) for any prefix node without children
(scalars and empty containers), and for an array prefix node whose
per-element writes all succeed a result whose node at the prefix has one
element per original element, each the outcome of the one suffix write on
that element. -/
theorem C2_wildcard_one_write_per_child :
    (IterateOverJson fWorlds worldsDoc =
      .ok (.obj [("worlds", .obj
        [("world1", .obj [("bind", .str "127.0.0.1")]),
         ("world2", .obj [("bind", .str "127.0.0.1")])])])) ∧
    (∀ (g : List String → GetResult) (v : ConfigurationFileReplacement) (parsed : Container)
       (value : String) (dt : JsonVT) (pre suf : List Char),
       splitFirstList dotStar v.Match.data = some (pre, suf) →
       LookupConfigurationValue ⟨[v], g⟩ v = .ok (value, dt) →
       ((Container.searchSeg parsed (splitDotL (trimCharList '.' pre)) = none →
           IterateOverJson ⟨[v], g⟩ parsed = .ok parsed) ∧
        (Container.searchSeg parsed (splitDotL (trimCharList '.' pre)) = some .null →
           IterateOverJson ⟨[v], g⟩ parsed = .ok parsed) ∧
        (∀ (fs fs2 : List (String × Container)),
           Container.searchSeg parsed (splitDotL (trimCharList '.' pre)) = some (.obj fs) →
           updateFields (applyToChild value dt ⟨trimCharList '.' suf⟩) fs = .ok fs2 →
           ∃ res, IterateOverJson ⟨[v], g⟩ parsed = .ok res ∧
             Container.searchSeg res (splitDotL (trimCharList '.' pre)) = some (.obj fs2) ∧
             fs2.length = fs.length ∧
             ∀ (i : Nat) (hi : i < fs.length) (hi2 : i < fs2.length),
               (fs2.get ⟨i, hi2⟩).1 = (fs.get ⟨i, hi⟩).1 ∧
               applyToChild value dt ⟨trimCharList '.' suf⟩ (fs.get ⟨i, hi⟩).2
                 = .ok (fs2.get ⟨i, hi2⟩).2) ∧
        (∀ (node : Container),
           Container.searchSeg parsed (splitDotL (trimCharList '.' pre)) = some node →
           node.children = [] →
           IterateOverJson ⟨[v], g⟩ parsed = .ok parsed) ∧
        (∀ (xs xs2 : List Container),
           Container.searchSeg parsed (splitDotL (trimCharList '.' pre)) = some (.arr xs) →
           updateItems (applyToChild value dt ⟨trimCharList '.' suf⟩) xs = .ok xs2 →
           ∃ res, IterateOverJson ⟨[v], g⟩ parsed = .ok res ∧
             Container.searchSeg res (splitDotL (trimCharList '.' pre)) = some (.arr xs2) ∧
             xs2.length = xs.length ∧
             ∀ (i : Nat) (hi : i < xs.length) (hi2 : i < xs2.length),
               applyToChild value dt ⟨trimCharList '.' suf⟩ (xs.get ⟨i, hi⟩)
                 = .ok (xs2.get ⟨i, hi2⟩)))) := by
  refine ⟨rfl, ?_⟩
  intro g v parsed value dt pre suf hsplit hlook
  have hco : containsDotStar v.Match = true := by simp [containsDotStar, hsplit]
  have hiter : ∀ p2, wildcardApply parsed v.Match value dt = .ok p2 →
      IterateOverJson ⟨[v], g⟩ parsed = .ok p2 := by
    intro p2 hw
    simp [IterateOverJson, iterRules, hlook, hco, hw]
  refine ⟨?_, ?_, ?_, ?_, ?_⟩
  · intro hmiss
    refine hiter parsed ?_
    simp only [wildcardApply, hsplit]
    exact mapAt_missing _ parsed _ hmiss
  · intro hnull
    refine hiter parsed ?_
    simp only [wildcardApply, hsplit]
    exact mapAt_id _ parsed _ Container.null hnull rfl
  · intro fs fs2 hfound hupd
    have hF : Container.updateChildren (.obj fs)
        (applyToChild value dt ⟨trimCharList '.' suf⟩) = .ok (.obj fs2) := by
      simp [Container.updateChildren, hupd]
    obtain ⟨res, hmap, hsearch⟩ := mapAt_found (splitDotL (trimCharList '.' pre)) parsed
      (fun node => node.updateChildren (applyToChild value dt ⟨trimCharList '.' suf⟩))
      (.obj fs) (.obj fs2) hfound hF
    obtain ⟨hlen, hpt⟩ := updateFields_pointwise hupd
    refine ⟨res, ?_, hsearch, hlen, hpt⟩
    refine hiter res ?_
    simp only [wildcardApply, hsplit]
    exact hmap
  · intro node hfound hnoc
    have hgnode : Container.updateChildren node
        (applyToChild value dt ⟨trimCharList '.' suf⟩) = .ok node := by
      cases node with
      | obj fs =>
        have hfs : fs = [] := by simpa [Container.children] using hnoc
        subst hfs
        rfl
      | arr xs =>
        have hxs : xs = [] := by simpa [Container.children] using hnoc
        subst hxs
        rfl
      | null => rfl
      | boolV b => rfl
      | num n => rfl
      | str s => rfl
    refine hiter parsed ?_
    simp only [wildcardApply, hsplit]
    exact mapAt_id _ parsed _ node hfound hgnode
  · intro xs xs2 hfound hupd
    have hF : Container.updateChildren (.arr xs)
        (applyToChild value dt ⟨trimCharList '.' suf⟩) = .ok (.arr xs2) := by
      simp [Container.updateChildren, hupd]
    obtain ⟨res, hmap, hsearch⟩ := mapAt_found (splitDotL (trimCharList '.' pre)) parsed
      (fun node => node.updateChildren (applyToChild value dt ⟨trimCharList '.' suf⟩))
      (.arr xs) (.arr xs2) hfound hF
    obtain ⟨hlen, hpt⟩ := updateItems_pointwise hupd
    refine ⟨res, ?_, hsearch, hlen, hpt⟩
    refine hiter res ?_
    simp only [wildcardApply, hsplit]
    exact hmap

/-- Witness for C2: the missing-prefix clause applied to the worlds
document — the rule `missing.*.bind` performs zero writes and returns the
document unchanged with no error. -/
theorem C2_witness :
    IterateOverJson fMissing worldsDoc = .ok worldsDoc :=
  ((C2_wildcard_one_write_per_child.2 (fun _ => .notFound) missingRule worldsDoc
      "127.0.0.1" .String "missing".data ".bind".data (by decide) rfl).1) rfl

/-- C5: a match path containing more than one wildcard marker is split
only at the first occurrence: the prefix of the split never contains the
marker (first conjunct, for every path), the spec's double-wildcard path
splits into `a` and `.b.*.c` (second conjunct), and the remaining marker
is used as a literal path segment — the pass writes the key `*` verbatim,
fanning out only once (third conjunct). -/
theorem C5_only_first_wildcard_splits :
    (∀ (s : String) (pre suf : List Char),
       splitFirstList dotStar s.data = some (pre, suf) →
       s.data = pre ++ dotStar ++ suf ∧ splitFirstList dotStar pre = none) ∧
    splitFirstList dotStar "a.*.b.*.c".data = some ("a".data, ".b.*.c".data) ∧
    IterateOverJson fDoubleStar doubleStarDoc =
      .ok (.obj [("a", .obj
        [("x", .obj [("b", .obj [("*", .obj [("c", .str "V")])])]),
         ("y", .obj [("b", .obj [("*", .obj [("c", .str "V")])])])])]) := by
  refine ⟨?_, by decide, rfl⟩
  intro s pre suf h
  exact splitFirstList_decomp dotStar h

/-- Witness for C5: the general first-split clause at the double-wildcard
path — the prefix is `a` and contains no marker. -/
theorem C5_witness :
    "a.*.b.*.c".data = "a".data ++ dotStar ++ ".b.*.c".data ∧
    splitFirstList dotStar "a".data = none :=
  C5_only_first_wildcard_splits.1 "a.*.b.*.c" "a".data ".b.*.c".data (by decide)

end Wings

